import Mathlib

/-!
# Log syntax highlighter: `internal/color/log_syntax.go`

A shallow embedding of `LogSyntaxHighlighter` (package `color`) and of the
standard-library calls it makes, followed by theorems about `Highlight` and
`HighlightBytes`.

* A Go `string` is an immutable sequence of bytes; a `[]byte` is a sequence of
  bytes.  The conversions `string(b)` and `[]byte(s)` copy the bytes unchanged.
* `strings.Contains` / `bytes.Contains` are byte-wise substring searches.
* `strings.ContainsAny` ranges over the UTF-8 decoded code points of its
  argument (an invalid byte decodes to U+FFFD and advances one byte).
* `Colorize` and the `Paint` constants are declared in another file of the
  package; `Colorize` is a parameter of every definition that calls it.
-/

namespace color

/-! ## Go values -/

/-- A Go `[]byte` value. -/
abbrev ByteSlice := List UInt8

/-- A Go `string` value: its bytes.  `GoString.mk b` is the conversion
`string(b)` and `s.bytes` is the conversion `[]byte(s)`. -/
structure GoString where
  bytes : List UInt8
deriving DecidableEq, Repr

/-- Go string concatenation `a + b`. -/
instance : Append GoString := ⟨fun a b => ⟨a.bytes ++ b.bytes⟩⟩

/-- The value of a Go string literal: the UTF-8 encoding of its text. -/
def lit (s : String) : GoString := ⟨s.toList.flatMap String.utf8EncodeChar⟩

/-! ## Standard library: `strings.Index`, `strings.Contains`, `bytes.Contains` -/

/-- Search loop of `Index`: `i` is the offset of `s` in the whole text.  The
result is the offset of the first occurrence of `sep`, or `-1`. -/
def indexFrom (i : Nat) : List UInt8 → List UInt8 → Int
  | [], sep => if sep.isEmpty then (i : Int) else -1
  | c :: cs, sep =>
    if sep.isPrefixOf (c :: cs) then (i : Int) else indexFrom (i + 1) cs sep

namespace strings

/-- `strings.Index(s, substr)`: the index of the first instance of `substr` in
`s`, or `-1` if `substr` is not present in `s`. -/
def Index (s substr : GoString) : Int := indexFrom 0 s.bytes substr.bytes

/-- `strings.Contains(s, substr)`: `Index(s, substr) >= 0`. -/
def Contains (s substr : GoString) : Bool := decide (Index s substr ≥ 0)

end strings

namespace bytes

/-- `bytes.Index(s, sep)`: the index of the first instance of `sep` in `s`, or
`-1` if `sep` is not present in `s`. -/
def Index (s sep : ByteSlice) : Int := indexFrom 0 s sep

/-- `bytes.Contains(b, subslice)`: `Index(b, subslice) != -1`. -/
def Contains (b subslice : ByteSlice) : Bool := decide (Index b subslice ≠ -1)

end bytes

/-! ## Standard library: UTF-8 decoding and `strings.ContainsAny` -/

namespace utf8

/-- `utf8.RuneError`, the replacement character U+FFFD. -/
def RuneError : Nat := 0xFFFD

/-- The tables `first` and `acceptRanges` of package `utf8`, for a leading byte
of a multi-byte sequence: the length of the sequence and the accepted range
`lo..hi` of the second byte.  `none` for an ASCII byte and for a byte that
cannot start a sequence. -/
def first (s0 : Nat) : Option (Nat × Nat × Nat) :=
  if 0xC2 ≤ s0 ∧ s0 ≤ 0xDF then some (2, 0x80, 0xBF)
  else if s0 = 0xE0 then some (3, 0xA0, 0xBF)
  else if 0xE1 ≤ s0 ∧ s0 ≤ 0xEC then some (3, 0x80, 0xBF)
  else if s0 = 0xED then some (3, 0x80, 0x9F)
  else if 0xEE ≤ s0 ∧ s0 ≤ 0xEF then some (3, 0x80, 0xBF)
  else if s0 = 0xF0 then some (4, 0x90, 0xBF)
  else if 0xF1 ≤ s0 ∧ s0 ≤ 0xF3 then some (4, 0x80, 0xBF)
  else if s0 = 0xF4 then some (4, 0x80, 0x8F)
  else none

/-- `utf8.DecodeRuneInString(s)`: the first code point of `s` and its width in
bytes; `(RuneError, 0)` for the empty string and `(RuneError, 1)` for an
invalid encoding. -/
def DecodeRuneInString : List UInt8 → Nat × Nat
  | [] => (RuneError, 0)
  | b0 :: rest =>
    let s0 := b0.toNat
    match first s0 with
    | none => if s0 < 0x80 then (s0, 1) else (RuneError, 1)
    | some (sz, lo, hi) =>
      if rest.length + 1 < sz then (RuneError, 1)
      else
        match rest with
        | [] => (RuneError, 1)
        | b1 :: rest1 =>
          let s1 := b1.toNat
          if s1 < lo ∨ hi < s1 then (RuneError, 1)
          else if sz ≤ 2 then ((s0 &&& 0x1F) <<< 6 ||| (s1 &&& 0x3F), 2)
          else
            match rest1 with
            | [] => (RuneError, 1)
            | b2 :: rest2 =>
              let s2 := b2.toNat
              if s2 < 0x80 ∨ 0xBF < s2 then (RuneError, 1)
              else if sz ≤ 3 then
                ((s0 &&& 0x0F) <<< 12 ||| (s1 &&& 0x3F) <<< 6 ||| (s2 &&& 0x3F), 3)
              else
                match rest2 with
                | [] => (RuneError, 1)
                | b3 :: _ =>
                  let s3 := b3.toNat
                  if s3 < 0x80 ∨ 0xBF < s3 then (RuneError, 1)
                  else
                    ((s0 &&& 0x07) <<< 18 ||| (s1 &&& 0x3F) <<< 12
                      ||| (s2 &&& 0x3F) <<< 6 ||| (s3 &&& 0x3F), 4)

end utf8

/-- The code points visited by `for _, c := range s`, with `fuel` bounding the
number of iterations: each iteration decodes one code point and advances by
its width. -/
def rangeRunes : Nat → List UInt8 → List Nat
  | 0, _ => []
  | _ + 1, [] => []
  | fuel + 1, b :: bs =>
    let d := utf8.DecodeRuneInString (b :: bs)
    d.1 :: rangeRunes fuel ((b :: bs).drop d.2)

/-- The code points of a string in order; every iteration of the range loop
consumes at least one byte, so `s.bytes.length` iterations are enough. -/
def runes (s : GoString) : List Nat := rangeRunes s.bytes.length s.bytes

namespace strings

/-- `strings.ContainsAny(s, chars)`: whether any Unicode code point in `chars`
is within `s`. -/
def ContainsAny (s chars : GoString) : Bool :=
  (runes s).any fun c => (runes chars).contains c

end strings

/-! ## Package `color` -/

/-- Modelled from the spec: the four colour tags `Highlight` hands to
`Colorize` (the `Paint` constants are declared outside `log_syntax.go`). -/
inductive Paint where
  | Red
  | Yellow
  | Blue
  | Green
deriving DecidableEq, Repr

/-- The type of the `Colorize(s string, c Paint) string` collaborator. -/
abbrev Colorizer := GoString → Paint → GoString

/-- `LogSyntaxHighlighter` provides fast syntax highlighting for log content
using string matching. -/
structure LogSyntaxHighlighter where
  errorKeywords : List GoString
  warnKeywords : List GoString
  infoKeywords : List GoString

/-- `NewLogSyntaxHighlighter` creates a new log syntax highlighter. -/
def NewLogSyntaxHighlighter : LogSyntaxHighlighter where
  errorKeywords :=
    [lit "ERROR", lit "error", lit "FATAL", lit "fatal", lit "PANIC", lit "panic",
     lit "Exception", lit "exception", lit "fail", lit "FAIL"]
  warnKeywords := [lit "WARN", lit "warn", lit "WARNING", lit "warning"]
  infoKeywords := [lit "INFO", lit "info"]

/-- One loop of `Highlight`:
`for _, keyword := range keywords { if strings.Contains(content, keyword) { return Colorize(content, c) } }`.
`some r` when the loop returns `r`, `none` when it runs to its end. -/
def rangeKeywords (Colorize : Colorizer) (content : GoString) (c : Paint) :
    List GoString → Option GoString
  | [] => none
  | keyword :: rest =>
    if strings.Contains content keyword then some (Colorize content c)
    else rangeKeywords Colorize content c rest

/-- `Highlight` applies fast syntax highlighting to log content using string
matching. -/
def Highlight (Colorize : Colorizer) (h : LogSyntaxHighlighter) (content : GoString) :
    GoString :=
  -- Check for error keywords first (most important)
  match rangeKeywords Colorize content Paint.Red h.errorKeywords with
  | some r => r
  | none =>
    -- Check for warning keywords
    match rangeKeywords Colorize content Paint.Yellow h.warnKeywords with
    | some r => r
    | none =>
      -- Check for info keywords
      match rangeKeywords Colorize content Paint.Blue h.infoKeywords with
      | some r => r
      | none =>
        if strings.ContainsAny content (lit "0123456789") then
          Colorize content Paint.Green
        else
          -- Default: no highlighting
          content

/-- One loop of `HighlightBytes`:
`for _, keyword := range keywords { if bytes.Contains(content, []byte(keyword)) { return []byte(Colorize(string(content), c)) } }`. -/
def rangeKeywordsBytes (Colorize : Colorizer) (content : ByteSlice) (c : Paint) :
    List GoString → Option ByteSlice
  | [] => none
  | keyword :: rest =>
    if bytes.Contains content keyword.bytes then
      some (Colorize (GoString.mk content) c).bytes
    else rangeKeywordsBytes Colorize content c rest

/-- `HighlightBytes` applies syntax highlighting to log content as bytes. -/
def HighlightBytes (Colorize : Colorizer) (h : LogSyntaxHighlighter) (content : ByteSlice) :
    ByteSlice :=
  match rangeKeywordsBytes Colorize content Paint.Red h.errorKeywords with
  | some r => r
  | none =>
    match rangeKeywordsBytes Colorize content Paint.Yellow h.warnKeywords with
    | some r => r
    | none =>
      match rangeKeywordsBytes Colorize content Paint.Blue h.infoKeywords with
      | some r => r
      | none =>
        let contentStr := GoString.mk content
        if strings.ContainsAny contentStr (lit "0123456789") then
          (Colorize contentStr Paint.Green).bytes
        else
          content

/-! ## Vocabulary of the statements -/

/-- `k` occurs in `s` as a contiguous substring: `s = p ++ k ++ q` for some
`p` and `q`. -/
def IsSubstring (k s : GoString) : Prop := k.bytes <:+: s.bytes

instance (k s : GoString) : Decidable (IsSubstring k s) :=
  inferInstanceAs (Decidable (k.bytes <:+: s.bytes))

/-- An ASCII decimal digit `'0'..'9'`, as a byte. -/
def isAsciiDigit (b : UInt8) : Bool := 0x30 ≤ b.toNat && b.toNat ≤ 0x39

/-- The string holds at least one ASCII decimal digit. -/
def HasAsciiDigit (s : GoString) : Prop := ∃ b ∈ s.bytes, isAsciiDigit b = true

instance (s : GoString) : Decidable (HasAsciiDigit s) :=
  inferInstanceAs (Decidable (∃ b ∈ s.bytes, isAsciiDigit b = true))

/-- Some keyword of the list occurs in `s`. -/
def HasKeyword (keywords : List GoString) (s : GoString) : Prop :=
  ∃ k ∈ keywords, IsSubstring k s

instance (keywords : List GoString) (s : GoString) : Decidable (HasKeyword keywords s) :=
  inferInstanceAs (Decidable (∃ k ∈ keywords, IsSubstring k s))

/-- The result of a call that styled the whole of `s` with the colour `r`, or
left `s` alone when `r` is `none`. -/
def styled (Colorize : Colorizer) (s : GoString) : Option Paint → GoString
  | none => s
  | some c => Colorize s c

/-- All keywords of a highlighter, tier after tier. -/
def keywords (h : LogSyntaxHighlighter) : List GoString :=
  h.errorKeywords ++ h.warnKeywords ++ h.infoKeywords

/-- ASCII case folding of one byte: `'A'..'Z'` to `'a'..'z'`. -/
def foldByte (b : UInt8) : UInt8 :=
  if 0x41 ≤ b.toNat ∧ b.toNat ≤ 0x5A then b + 0x20 else b

/-- ASCII case folding of a string. -/
def foldCase (s : GoString) : GoString := ⟨s.bytes.map foldByte⟩

/-- Modelled from the spec: a sample `Colorize` collaborator (the function
itself is declared outside `log_syntax.go`), which embeds an ANSI colour
directive around the value and leaves the value's own bytes as they are.  It
only instantiates the theorems at concrete inputs; every theorem is stated for
an arbitrary collaborator. -/
def sampleColorize : Colorizer := fun s c =>
  let code :=
    match c with
    | Paint.Red => lit "31"
    | Paint.Green => lit "32"
    | Paint.Yellow => lit "33"
    | Paint.Blue => lit "34"
  lit "\x1b[" ++ code ++ lit "m" ++ s ++ lit "\x1b[0m"

/-- A collaborator that puts one byte naming the colour in front of the value:
its results tell the four colours, and the unstyled input, apart. -/
def tagColorize : Colorizer := fun s c =>
  match c with
  | Paint.Red => ⟨1 :: s.bytes⟩
  | Paint.Yellow => ⟨2 :: s.bytes⟩
  | Paint.Blue => ⟨3 :: s.bytes⟩
  | Paint.Green => ⟨4 :: s.bytes⟩

/-- Severity rank of an outcome: Red > Yellow > Blue > Green > unchanged. -/
def rank : Option Paint → Nat
  | some Paint.Red => 4
  | some Paint.Yellow => 3
  | some Paint.Blue => 2
  | some Paint.Green => 1
  | none => 0

/-- The ordered rule list of the design notes, as (predicate, colour) pairs:
contains some error keyword, Red; contains some warning keyword, Yellow;
contains some info keyword, Blue; contains an ASCII digit, Green. -/
def specRules (h : LogSyntaxHighlighter) : List ((GoString → Bool) × Paint) :=
  [(fun s => decide (HasKeyword h.errorKeywords s), Paint.Red),
   (fun s => decide (HasKeyword h.warnKeywords s), Paint.Yellow),
   (fun s => decide (HasKeyword h.infoKeywords s), Paint.Blue),
   (fun s => decide (HasAsciiDigit s), Paint.Green)]

/-- First-match evaluation of a rule list, as the design notes word it: the
result is `Colorize(s, c)` for the colour `c` of the first rule whose predicate
holds of `s`, and `s` itself when no rule's predicate holds. -/
def specFirstMatch (Colorize : Colorizer) (rules : List ((GoString → Bool) × Paint))
    (s : GoString) : GoString :=
  match rules.find? (fun r => r.1 s) with
  | some r => Colorize s r.2
  | none => s

/-! ## Substring search -/

theorem indexFrom_eq_neg_one_or_ge (i : Nat) (s sep : List UInt8) :
    indexFrom i s sep = -1 ∨ (i : Int) ≤ indexFrom i s sep := by
  induction s generalizing i with
  | nil => unfold indexFrom; split <;> simp
  | cons c cs ih =>
    unfold indexFrom
    split
    · exact Or.inr (le_refl _)
    · rcases ih (i + 1) with h | h
      · exact Or.inl h
      · exact Or.inr (by push_cast at h; omega)

theorem indexFrom_nonneg_iff (i : Nat) (s sep : List UInt8) :
    0 ≤ indexFrom i s sep ↔ sep <:+: s := by
  induction s generalizing i with
  | nil =>
    unfold indexFrom
    cases sep <;> simp
  | cons c cs ih =>
    unfold indexFrom
    rw [List.infix_cons_iff]
    by_cases hp : sep.isPrefixOf (c :: cs) = true
    · simp only [hp, if_true]
      exact ⟨fun _ => Or.inl (List.isPrefixOf_iff_prefix.mp hp), fun _ => Int.ofNat_nonneg i⟩
    · simp only [hp, if_false, Bool.false_eq_true]
      rw [ih (i + 1)]
      constructor
      · exact Or.inr
      · rintro (h | h)
        · exact absurd (List.isPrefixOf_iff_prefix.mpr h) hp
        · exact h

theorem strings_Contains_iff (s k : GoString) :
    strings.Contains s k = true ↔ IsSubstring k s := by
  unfold strings.Contains strings.Index IsSubstring
  rw [decide_eq_true_iff, ge_iff_le, indexFrom_nonneg_iff]

theorem bytes_Contains_iff (b k : ByteSlice) :
    bytes.Contains b k = true ↔ k <:+: b := by
  unfold bytes.Contains bytes.Index
  rw [decide_eq_true_iff, ← indexFrom_nonneg_iff 0]
  rcases indexFrom_eq_neg_one_or_ge 0 b k with h | h
  · rw [h]; decide
  · constructor
    · intro _; simpa using h
    · intro _ hneg; rw [hneg] at h; simp at h

theorem bytes_Contains_eq (s k : GoString) :
    bytes.Contains s.bytes k.bytes = strings.Contains s k := by
  rw [Bool.eq_iff_iff, bytes_Contains_iff, strings_Contains_iff]
  rfl

theorem isSubstring_iff (k s : GoString) :
    IsSubstring k s ↔ ∃ p q : GoString, s = p ++ k ++ q := by
  constructor
  · rintro ⟨p, q, h⟩
    exact ⟨⟨p⟩, ⟨q⟩, by cases s; exact congrArg GoString.mk h.symm⟩
  · rintro ⟨p, q, rfl⟩
    exact ⟨p.bytes, q.bytes, rfl⟩


/-! ## UTF-8 decoding and the digit test -/

theorem le_or_left (a b : Nat) : a ≤ a ||| b :=
  Nat.le_of_testBit fun i h => by simp [h]

theorem le_or_right (a b : Nat) : b ≤ a ||| b :=
  Nat.le_of_testBit fun i h => by simp [h]

theorem first_eq_some {s0 sz lo hi : Nat} (h : utf8.first s0 = some (sz, lo, hi)) :
    0xC2 ≤ s0 ∧ 0x80 ≤ lo ∧ hi ≤ 0xBF ∧
    ((sz = 2 ∧ s0 ≤ 0xDF) ∨ (sz = 3 ∧ 0xE0 ≤ s0 ∧ s0 ≤ 0xEF ∧ (s0 = 0xE0 → 0xA0 ≤ lo)) ∨
     (sz = 4 ∧ 0xF0 ≤ s0 ∧ s0 ≤ 0xF4 ∧ (s0 = 0xF0 → 0x90 ≤ lo))) := by
  unfold utf8.first at h
  split_ifs at h <;> simp only [Option.some.injEq, Prod.mk.injEq, reduceCtorEq] at h <;> omega

theorem rune2_ge (s0 x : Nat) (h0 : 0xC2 ≤ s0) (h1 : s0 ≤ 0xDF) :
    0x80 ≤ (s0 &&& 0x1F) <<< 6 ||| x := by
  have h : s0 &&& 0x1F = s0 % 32 := Nat.and_pow_two_sub_one_eq_mod s0 5
  rw [h, Nat.shiftLeft_eq]
  exact le_trans (by omega) (le_or_left _ _)

theorem rune3_ge (s0 s1 x : Nat) (h0 : 0xE0 ≤ s0) (h1 : s0 ≤ 0xEF)
    (h2 : s0 = 0xE0 → 0xA0 ≤ s1) (h3 : s1 ≤ 0xBF) :
    0x80 ≤ (s0 &&& 0x0F) <<< 12 ||| (s1 &&& 0x3F) <<< 6 ||| x := by
  have h : s0 &&& 0x0F = s0 % 16 := Nat.and_pow_two_sub_one_eq_mod s0 4
  have h' : s1 &&& 0x3F = s1 % 64 := Nat.and_pow_two_sub_one_eq_mod s1 6
  rw [h, h', Nat.shiftLeft_eq, Nat.shiftLeft_eq]
  refine le_trans ?_ (le_or_left _ _)
  by_cases hs : s0 = 0xE0
  · exact le_trans (by have := h2 hs; omega) (le_or_right _ _)
  · exact le_trans (by omega) (le_or_left _ _)

theorem rune4_ge (s0 s1 x y : Nat) (h0 : 0xF0 ≤ s0) (h1 : s0 ≤ 0xF4)
    (h2 : s0 = 0xF0 → 0x90 ≤ s1) (h3 : s1 ≤ 0xBF) :
    0x80 ≤ (s0 &&& 0x07) <<< 18 ||| (s1 &&& 0x3F) <<< 12 ||| x ||| y := by
  have h : s0 &&& 0x07 = s0 % 8 := Nat.and_pow_two_sub_one_eq_mod s0 3
  have h' : s1 &&& 0x3F = s1 % 64 := Nat.and_pow_two_sub_one_eq_mod s1 6
  rw [h, h', Nat.shiftLeft_eq, Nat.shiftLeft_eq]
  refine le_trans ?_ (le_or_left _ _)
  refine le_trans ?_ (le_or_left _ _)
  by_cases hs : s0 = 0xF0
  · exact le_trans (by have := h2 hs; omega) (le_or_right _ _)
  · exact le_trans (by omega) (le_or_left _ _)

theorem decode_cons {b : UInt8} {bs : List UInt8} {r w : Nat}
    (hd : utf8.DecodeRuneInString (b :: bs) = (r, w)) :
    (r = b.toNat ∧ w = 1 ∧ b.toNat < 0x80) ∨
    (0x80 ≤ r ∧ 0x80 ≤ b.toNat ∧ 1 ≤ w ∧
      ∀ x ∈ bs, x.toNat < 0x80 → x ∈ (b :: bs).drop w) := by
  unfold utf8.DecodeRuneInString at hd
  cases hf : utf8.first b.toNat with
  | none =>
    simp only [hf] at hd
    have hnone : ¬ (0xC2 ≤ b.toNat ∧ b.toNat ≤ 0xDF) := by
      intro hc
      unfold utf8.first at hf
      rw [if_pos hc] at hf
      exact absurd hf (by simp)
    split at hd
    · left
      simp only [Prod.mk.injEq] at hd
      omega
    · right
      simp only [Prod.mk.injEq, utf8.RuneError] at hd
      obtain ⟨rfl, rfl⟩ := hd
      refine ⟨by omega, by omega, le_refl _, fun x hx _ => ?_⟩
      simpa using hx
  | some t =>
    obtain ⟨sz, lo, hi⟩ := t
    simp only [hf] at hd
    obtain ⟨h0, hlo, hhi, hsz⟩ := first_eq_some hf
    right
    have herr : ∀ {r w : Nat}, (utf8.RuneError, 1) = (r, w) →
        0x80 ≤ r ∧ 0x80 ≤ b.toNat ∧ 1 ≤ w ∧
          ∀ x ∈ bs, x.toNat < 0x80 → x ∈ (b :: bs).drop w := by
      intro r w h
      simp only [Prod.mk.injEq, utf8.RuneError] at h
      obtain ⟨rfl, rfl⟩ := h
      refine ⟨by omega, by omega, le_refl _, fun x hx _ => ?_⟩
      simpa using hx
    split at hd
    · exact herr hd
    · split at hd
      · exact herr hd
      · rename_i b1 rest1
        split at hd
        · exact herr hd
        · rename_i hin
          split at hd
          · simp only [Prod.mk.injEq] at hd
            obtain ⟨rfl, rfl⟩ := hd
            refine ⟨rune2_ge _ _ h0 (by omega), by omega, by omega, fun x hx hlt => ?_⟩
            rcases List.mem_cons.mp hx with rfl | hx
            · omega
            · simpa using hx
          · rename_i hsz2
            split at hd
            · exact herr hd
            · rename_i b2 rest2
              split at hd
              · exact herr hd
              · rename_i hin2
                split at hd
                · simp only [Prod.mk.injEq] at hd
                  obtain ⟨rfl, rfl⟩ := hd
                  refine ⟨rune3_ge _ _ _ (by omega) (by omega) (by omega) (by omega),
                    by omega, by omega, fun x hx hlt => ?_⟩
                  rcases List.mem_cons.mp hx with rfl | hx
                  · omega
                  · rcases List.mem_cons.mp hx with rfl | hx
                    · omega
                    · simpa using hx
                · rename_i hsz3
                  split at hd
                  · exact herr hd
                  · rename_i b3 rest3
                    split at hd
                    · exact herr hd
                    · rename_i hin3
                      simp only [Prod.mk.injEq] at hd
                      obtain ⟨rfl, rfl⟩ := hd
                      refine ⟨rune4_ge _ _ _ _ (by omega) (by omega) (by omega) (by omega),
                        by omega, by omega, fun x hx hlt => ?_⟩
                      rcases List.mem_cons.mp hx with rfl | hx
                      · omega
                      · rcases List.mem_cons.mp hx with rfl | hx
                        · omega
                        · rcases List.mem_cons.mp hx with rfl | hx
                          · omega
                          · simpa using hx

theorem decode_spec (b : UInt8) (bs : List UInt8) :
    ((utf8.DecodeRuneInString (b :: bs)).1 = b.toNat ∧
      (utf8.DecodeRuneInString (b :: bs)).2 = 1 ∧ b.toNat < 0x80) ∨
    (0x80 ≤ (utf8.DecodeRuneInString (b :: bs)).1 ∧ 0x80 ≤ b.toNat ∧
      1 ≤ (utf8.DecodeRuneInString (b :: bs)).2 ∧
      ∀ x ∈ bs, x.toNat < 0x80 →
        x ∈ (b :: bs).drop (utf8.DecodeRuneInString (b :: bs)).2) :=
  @decode_cons b bs (utf8.DecodeRuneInString (b :: bs)).1
    (utf8.DecodeRuneInString (b :: bs)).2 rfl

theorem decode_width_pos (b : UInt8) (bs : List UInt8) :
    1 ≤ (utf8.DecodeRuneInString (b :: bs)).2 := by
  rcases decode_spec b bs with h | h
  · omega
  · exact h.2.2.1

/-- A code point below `0x80` met by the range loop is a byte of the text. -/
theorem rangeRunes_ascii_mem (fuel : Nat) (s : List UInt8) (r : Nat)
    (hr : r ∈ rangeRunes fuel s) (hlt : r < 0x80) : ∃ x ∈ s, x.toNat = r := by
  induction fuel generalizing s with
  | zero => simp [rangeRunes] at hr
  | succ n ih =>
    cases s with
    | nil => simp [rangeRunes] at hr
    | cons b bs =>
      simp only [rangeRunes, List.mem_cons] at hr
      rcases hr with hr | hr
      · rcases decode_spec b bs with h | h
        · exact ⟨b, List.mem_cons_self _ _, by omega⟩
        · omega
      · obtain ⟨x, hx, hxr⟩ := ih _ hr
        exact ⟨x, List.mem_of_mem_drop hx, hxr⟩

/-- Every byte below `0x80` of the text is met by the range loop as a code
point of its own, provided the loop has fuel for the whole text. -/
theorem mem_rangeRunes_of_ascii (fuel : Nat) (s : List UInt8) (hfuel : s.length ≤ fuel)
    (x : UInt8) (hx : x ∈ s) (hlt : x.toNat < 0x80) : x.toNat ∈ rangeRunes fuel s := by
  induction fuel generalizing s with
  | zero =>
    have : s = [] := List.eq_nil_of_length_eq_zero (by omega)
    subst this
    simp at hx
  | succ n ih =>
    cases s with
    | nil => simp at hx
    | cons b bs =>
      simp only [rangeRunes, List.mem_cons]
      have hw := decode_width_pos b bs
      have hlen : ((b :: bs).drop (utf8.DecodeRuneInString (b :: bs)).2).length ≤ n := by
        simp only [List.length_drop, List.length_cons] at hfuel ⊢
        omega
      rcases decode_spec b bs with h | h
      · rcases List.mem_cons.mp hx with rfl | hx
        · exact Or.inl h.1.symm
        · right
          refine ih _ hlen ?_
          rw [h.2.1]
          simpa using hx
      · rcases List.mem_cons.mp hx with rfl | hx
        · omega
        · exact Or.inr (ih _ hlen (h.2.2.2 x hx hlt))

theorem runes_digits : runes (lit "0123456789") = [48, 49, 50, 51, 52, 53, 54, 55, 56, 57] := by
  decide

theorem containsAny_digits (s : GoString) :
    strings.ContainsAny s (lit "0123456789") = s.bytes.any isAsciiDigit := by
  rw [Bool.eq_iff_iff]
  unfold strings.ContainsAny
  rw [runes_digits, List.any_eq_true, List.any_eq_true]
  constructor
  · rintro ⟨r, hr, hmem⟩
    have hr48 : 48 ≤ r ∧ r ≤ 57 := by
      have hmem' : r ∈ [48, 49, 50, 51, 52, 53, 54, 55, 56, 57] := by simpa using hmem
      simp only [List.mem_cons, List.mem_singleton, List.not_mem_nil, or_false] at hmem'
      omega
    obtain ⟨x, hx, hxr⟩ := rangeRunes_ascii_mem _ _ r hr (by omega)
    exact ⟨x, hx, by simp only [isAsciiDigit, Bool.and_eq_true, decide_eq_true_eq]; omega⟩
  · rintro ⟨x, hx, hd⟩
    simp only [isAsciiDigit, Bool.and_eq_true, decide_eq_true_eq] at hd
    refine ⟨x.toNat, mem_rangeRunes_of_ascii _ _ (le_refl _) x hx (by omega), ?_⟩
    have hx' : x.toNat < 256 := x.toNat_lt
    have : x.toNat ∈ [48, 49, 50, 51, 52, 53, 54, 55, 56, 57] := by
      simp only [List.mem_cons, List.mem_singleton, List.not_mem_nil, or_false]
      omega
    simpa using this

/-! ## The keyword loops and the shape of `Highlight` -/

theorem hasKeyword_cons (k : GoString) (rest : List GoString) (s : GoString) :
    HasKeyword (k :: rest) s ↔ IsSubstring k s ∨ HasKeyword rest s := by
  unfold HasKeyword
  simp only [List.mem_cons, exists_eq_or_imp]

theorem rangeKeywords_eq (Colorize : Colorizer) (s : GoString) (c : Paint)
    (keywords : List GoString) :
    rangeKeywords Colorize s c keywords =
      if HasKeyword keywords s then some (Colorize s c) else none := by
  induction keywords with
  | nil =>
    have : ¬ HasKeyword [] s := by rintro ⟨k, hk, _⟩; simp at hk
    simp only [rangeKeywords, this, if_false]
  | cons k rest ih =>
    unfold rangeKeywords
    by_cases hk : strings.Contains s k = true
    · have : HasKeyword (k :: rest) s :=
        (hasKeyword_cons k rest s).mpr (Or.inl ((strings_Contains_iff s k).mp hk))
      rw [if_pos hk, if_pos this]
    · rw [if_neg hk, ih]
      have hiff : HasKeyword (k :: rest) s ↔ HasKeyword rest s := by
        rw [hasKeyword_cons]
        constructor
        · rintro (h | h)
          · exact absurd ((strings_Contains_iff s k).mpr h) hk
          · exact h
        · exact Or.inr
      simp only [hiff]

theorem rangeKeywordsBytes_eq (Colorize : Colorizer) (b : ByteSlice) (c : Paint)
    (keywords : List GoString) :
    rangeKeywordsBytes Colorize b c keywords =
      (rangeKeywords Colorize (GoString.mk b) c keywords).map GoString.bytes := by
  induction keywords with
  | nil => rfl
  | cons k rest ih =>
    unfold rangeKeywordsBytes rangeKeywords
    have hc : bytes.Contains b k.bytes = strings.Contains (GoString.mk b) k :=
      bytes_Contains_eq (GoString.mk b) k
    rw [hc, ih]
    split <;> rfl

/-- `Highlight` as a cascade of tests on its input. -/
theorem Highlight_eq (Colorize : Colorizer) (h : LogSyntaxHighlighter) (s : GoString) :
    Highlight Colorize h s =
      if HasKeyword h.errorKeywords s then Colorize s Paint.Red
      else if HasKeyword h.warnKeywords s then Colorize s Paint.Yellow
      else if HasKeyword h.infoKeywords s then Colorize s Paint.Blue
      else if HasAsciiDigit s then Colorize s Paint.Green
      else s := by
  have hd : (strings.ContainsAny s (lit "0123456789") = true) ↔ HasAsciiDigit s := by
    rw [containsAny_digits, List.any_eq_true]
    rfl
  unfold Highlight
  simp only [rangeKeywords_eq, hd]
  split_ifs <;> rfl

/-- `HighlightBytes` returns the bytes of what `Highlight` returns. -/
theorem HighlightBytes_eq (Colorize : Colorizer) (h : LogSyntaxHighlighter) (b : ByteSlice) :
    HighlightBytes Colorize h b = (Highlight Colorize h (GoString.mk b)).bytes := by
  unfold HighlightBytes Highlight
  simp only [rangeKeywordsBytes_eq, rangeKeywords_eq]
  split_ifs <;> rfl

theorem hasKeyword_perm {l l' : List GoString} (hp : l.Perm l') (s : GoString) :
    HasKeyword l s ↔ HasKeyword l' s := by
  unfold HasKeyword
  constructor
  · rintro ⟨k, hk, hs⟩
    exact ⟨k, hp.mem_iff.mp hk, hs⟩
  · rintro ⟨k, hk, hs⟩
    exact ⟨k, hp.mem_iff.mpr hk, hs⟩

theorem isSubstring_append (p k q : GoString) : IsSubstring k (p ++ k ++ q) :=
  (isSubstring_iff k (p ++ k ++ q)).mpr ⟨p, q, rfl⟩

/-! ## The tiers of `Highlight` -/

/-- C1. Error tier always wins: a string that contains a keyword of the error
tier as a contiguous substring is returned as `Colorize(s, Red)`, whatever
else (warning keywords, info keywords, digits) it contains. -/
theorem highlight_error_tier_wins (Colorize : Colorizer) (s k : GoString)
    (hk : k ∈ NewLogSyntaxHighlighter.errorKeywords) (hs : IsSubstring k s) :
    Highlight Colorize NewLogSyntaxHighlighter s = Colorize s Paint.Red := by
  rw [Highlight_eq, if_pos ⟨k, hk, hs⟩]

/-- C1 at "connection error at line 42", which holds both "error" and digits. -/
theorem highlight_error_tier_wins_witness :
    lit "error" ∈ NewLogSyntaxHighlighter.errorKeywords ∧
    IsSubstring (lit "error") (lit "connection error at line 42") ∧
    HasAsciiDigit (lit "connection error at line 42") ∧
    Highlight sampleColorize NewLogSyntaxHighlighter (lit "connection error at line 42") =
      sampleColorize (lit "connection error at line 42") Paint.Red :=
  ⟨by decide, by decide, by decide,
    highlight_error_tier_wins sampleColorize (lit "connection error at line 42") (lit "error")
      (by decide) (by decide)⟩

/-- C2. A string that contains a keyword of the warning tier and no keyword of
the error tier is returned as `Colorize(s, Yellow)`, whether or not it also
contains info keywords or digits. -/
theorem highlight_warning_tier (Colorize : Colorizer) (s k : GoString)
    (hk : k ∈ NewLogSyntaxHighlighter.warnKeywords) (hs : IsSubstring k s)
    (hne : ∀ e ∈ NewLogSyntaxHighlighter.errorKeywords, ¬ IsSubstring e s) :
    Highlight Colorize NewLogSyntaxHighlighter s = Colorize s Paint.Yellow := by
  have h1 : ¬ HasKeyword NewLogSyntaxHighlighter.errorKeywords s :=
    fun ⟨e, he, hes⟩ => hne e he hes
  rw [Highlight_eq, if_neg h1, if_pos ⟨k, hk, hs⟩]

/-- C2 at "WARNING: disk almost full". -/
theorem highlight_warning_tier_witness :
    lit "WARNING" ∈ NewLogSyntaxHighlighter.warnKeywords ∧
    IsSubstring (lit "WARNING") (lit "WARNING: disk almost full") ∧
    (∀ e ∈ NewLogSyntaxHighlighter.errorKeywords,
      ¬ IsSubstring e (lit "WARNING: disk almost full")) ∧
    Highlight sampleColorize NewLogSyntaxHighlighter (lit "WARNING: disk almost full") =
      sampleColorize (lit "WARNING: disk almost full") Paint.Yellow :=
  ⟨by decide, by decide, by decide,
    highlight_warning_tier sampleColorize (lit "WARNING: disk almost full") (lit "WARNING")
      (by decide) (by decide) (by decide)⟩

/-- C3. A string that contains a keyword of the info tier and no keyword of the
error and warning tiers is returned as `Colorize(s, Blue)`, whether or not it
also contains digits. -/
theorem highlight_info_tier (Colorize : Colorizer) (s k : GoString)
    (hk : k ∈ NewLogSyntaxHighlighter.infoKeywords) (hs : IsSubstring k s)
    (hne : ∀ e ∈ NewLogSyntaxHighlighter.errorKeywords, ¬ IsSubstring e s)
    (hnw : ∀ e ∈ NewLogSyntaxHighlighter.warnKeywords, ¬ IsSubstring e s) :
    Highlight Colorize NewLogSyntaxHighlighter s = Colorize s Paint.Blue := by
  have h1 : ¬ HasKeyword NewLogSyntaxHighlighter.errorKeywords s :=
    fun ⟨e, he, hes⟩ => hne e he hes
  have h2 : ¬ HasKeyword NewLogSyntaxHighlighter.warnKeywords s :=
    fun ⟨e, he, hes⟩ => hnw e he hes
  rw [Highlight_eq, if_neg h1, if_neg h2, if_pos ⟨k, hk, hs⟩]

/-- C3 at "INFO starting service". -/
theorem highlight_info_tier_witness :
    lit "INFO" ∈ NewLogSyntaxHighlighter.infoKeywords ∧
    IsSubstring (lit "INFO") (lit "INFO starting service") ∧
    (∀ e ∈ NewLogSyntaxHighlighter.errorKeywords,
      ¬ IsSubstring e (lit "INFO starting service")) ∧
    (∀ e ∈ NewLogSyntaxHighlighter.warnKeywords,
      ¬ IsSubstring e (lit "INFO starting service")) ∧
    Highlight sampleColorize NewLogSyntaxHighlighter (lit "INFO starting service") =
      sampleColorize (lit "INFO starting service") Paint.Blue :=
  ⟨by decide, by decide, by decide, by decide,
    highlight_info_tier sampleColorize (lit "INFO starting service") (lit "INFO")
      (by decide) (by decide) (by decide) (by decide)⟩

/-- C4. Numeric fallback: a string that contains no keyword of any of the three
tiers and at least one ASCII decimal digit is returned as
`Colorize(s, Green)`. -/
theorem highlight_numeric_fallback (Colorize : Colorizer) (s : GoString)
    (hne : ∀ e ∈ NewLogSyntaxHighlighter.errorKeywords, ¬ IsSubstring e s)
    (hnw : ∀ e ∈ NewLogSyntaxHighlighter.warnKeywords, ¬ IsSubstring e s)
    (hni : ∀ e ∈ NewLogSyntaxHighlighter.infoKeywords, ¬ IsSubstring e s)
    (hd : HasAsciiDigit s) :
    Highlight Colorize NewLogSyntaxHighlighter s = Colorize s Paint.Green := by
  have h1 : ¬ HasKeyword NewLogSyntaxHighlighter.errorKeywords s :=
    fun ⟨e, he, hes⟩ => hne e he hes
  have h2 : ¬ HasKeyword NewLogSyntaxHighlighter.warnKeywords s :=
    fun ⟨e, he, hes⟩ => hnw e he hes
  have h3 : ¬ HasKeyword NewLogSyntaxHighlighter.infoKeywords s :=
    fun ⟨e, he, hes⟩ => hni e he hes
  rw [Highlight_eq, if_neg h1, if_neg h2, if_neg h3, if_pos hd]

/-- C4 at "retry attempt 3". -/
theorem highlight_numeric_fallback_witness :
    (∀ e ∈ NewLogSyntaxHighlighter.errorKeywords, ¬ IsSubstring e (lit "retry attempt 3")) ∧
    (∀ e ∈ NewLogSyntaxHighlighter.warnKeywords, ¬ IsSubstring e (lit "retry attempt 3")) ∧
    (∀ e ∈ NewLogSyntaxHighlighter.infoKeywords, ¬ IsSubstring e (lit "retry attempt 3")) ∧
    HasAsciiDigit (lit "retry attempt 3") ∧
    Highlight sampleColorize NewLogSyntaxHighlighter (lit "retry attempt 3") =
      sampleColorize (lit "retry attempt 3") Paint.Green :=
  ⟨by decide, by decide, by decide, by decide,
    highlight_numeric_fallback sampleColorize (lit "retry attempt 3")
      (by decide) (by decide) (by decide) (by decide)⟩

/-- C5. Default: a string that contains no keyword of any tier and no ASCII
decimal digit is returned as it is, for every `Colorize`: the collaborator is
not applied.  Only the bytes `'0'..'9'` count as digits. -/
theorem highlight_default_unchanged (Colorize : Colorizer) (s : GoString)
    (hne : ∀ e ∈ NewLogSyntaxHighlighter.errorKeywords, ¬ IsSubstring e s)
    (hnw : ∀ e ∈ NewLogSyntaxHighlighter.warnKeywords, ¬ IsSubstring e s)
    (hni : ∀ e ∈ NewLogSyntaxHighlighter.infoKeywords, ¬ IsSubstring e s)
    (hd : ¬ HasAsciiDigit s) :
    Highlight Colorize NewLogSyntaxHighlighter s = s := by
  have h1 : ¬ HasKeyword NewLogSyntaxHighlighter.errorKeywords s :=
    fun ⟨e, he, hes⟩ => hne e he hes
  have h2 : ¬ HasKeyword NewLogSyntaxHighlighter.warnKeywords s :=
    fun ⟨e, he, hes⟩ => hnw e he hes
  have h3 : ¬ HasKeyword NewLogSyntaxHighlighter.infoKeywords s :=
    fun ⟨e, he, hes⟩ => hni e he hes
  rw [Highlight_eq, if_neg h1, if_neg h2, if_neg h3, if_neg hd]

/-- C5 at "service is healthy", and at a text whose only digits are an
Arabic-Indic three and a full-width three. -/
theorem highlight_default_unchanged_witness :
    ¬ HasAsciiDigit (lit "service is healthy") ∧
    Highlight sampleColorize NewLogSyntaxHighlighter (lit "service is healthy") =
      lit "service is healthy" ∧
    sampleColorize (lit "service is healthy") Paint.Green ≠ lit "service is healthy" ∧
    ¬ HasAsciiDigit (lit "retry attempt ٣３") ∧
    Highlight sampleColorize NewLogSyntaxHighlighter (lit "retry attempt ٣３") =
      lit "retry attempt ٣３" :=
  ⟨by decide,
    highlight_default_unchanged sampleColorize (lit "service is healthy")
      (by decide) (by decide) (by decide) (by decide),
    by decide, by decide,
    highlight_default_unchanged sampleColorize (lit "retry attempt ٣３")
      (by decide) (by decide) (by decide) (by decide)⟩

/-! ## The two entry points -/

/-- C6. The two entry points agree: `HighlightBytes(b)` is, byte for byte,
`[]byte(Highlight(string(b)))`; equivalently `HighlightBytes([]byte(s))` is
`[]byte(Highlight(s))`; and each containment check on bytes gives the answer of
the check on strings, so both select the same tier. -/
theorem highlightBytes_agrees_with_highlight (Colorize : Colorizer)
    (h : LogSyntaxHighlighter) :
    (∀ b : ByteSlice,
      HighlightBytes Colorize h b = (Highlight Colorize h (GoString.mk b)).bytes) ∧
    (∀ s : GoString, HighlightBytes Colorize h s.bytes = (Highlight Colorize h s).bytes) ∧
    (∀ (b : ByteSlice) (k : GoString),
      bytes.Contains b k.bytes = strings.Contains (GoString.mk b) k) :=
  ⟨fun b => HighlightBytes_eq Colorize h b,
    fun s => HighlightBytes_eq Colorize h s.bytes,
    fun b k => bytes_Contains_eq (GoString.mk b) k⟩

/-- C7. Shape of the output: for every input there is one outcome `r`, no
colour or one of Red, Yellow, Blue, Green, such that for every collaborator
the result of `Highlight` is the input itself (no colour) or `Colorize`
applied once to the whole input with that colour; the same holds for
`HighlightBytes` over bytes. -/
theorem highlight_shape (h : LogSyntaxHighlighter) :
    (∀ s : GoString, ∃ r : Option Paint,
      r ∈ [none, some Paint.Red, some Paint.Yellow, some Paint.Blue, some Paint.Green] ∧
      ∀ Colorize : Colorizer, Highlight Colorize h s = styled Colorize s r) ∧
    (∀ b : ByteSlice, ∃ r : Option Paint,
      r ∈ [none, some Paint.Red, some Paint.Yellow, some Paint.Blue, some Paint.Green] ∧
      ∀ Colorize : Colorizer,
        HighlightBytes Colorize h b =
          match r with
          | none => b
          | some c => (Colorize (GoString.mk b) c).bytes) := by
  have key : ∀ s : GoString, ∃ r : Option Paint,
      r ∈ [none, some Paint.Red, some Paint.Yellow, some Paint.Blue, some Paint.Green] ∧
      ∀ Colorize : Colorizer, Highlight Colorize h s = styled Colorize s r := by
    intro s
    by_cases h1 : HasKeyword h.errorKeywords s
    · exact ⟨some Paint.Red, by simp, fun C => by rw [Highlight_eq, if_pos h1]; rfl⟩
    by_cases h2 : HasKeyword h.warnKeywords s
    · exact ⟨some Paint.Yellow, by simp,
        fun C => by rw [Highlight_eq, if_neg h1, if_pos h2]; rfl⟩
    by_cases h3 : HasKeyword h.infoKeywords s
    · exact ⟨some Paint.Blue, by simp,
        fun C => by rw [Highlight_eq, if_neg h1, if_neg h2, if_pos h3]; rfl⟩
    by_cases h4 : HasAsciiDigit s
    · exact ⟨some Paint.Green, by simp,
        fun C => by rw [Highlight_eq, if_neg h1, if_neg h2, if_neg h3, if_pos h4]; rfl⟩
    · exact ⟨none, by simp,
        fun C => by rw [Highlight_eq, if_neg h1, if_neg h2, if_neg h3, if_neg h4]; rfl⟩
  refine ⟨key, fun b => ?_⟩
  obtain ⟨r, hr, hC⟩ := key (GoString.mk b)
  refine ⟨r, hr, fun C => ?_⟩
  rw [HighlightBytes_eq, hC C]
  cases r <;> rfl

/-! ## Keyword order, word boundaries, letter case -/

/-- C8. Keyword order inside a tier is irrelevant: a highlighter whose three
lists are permutations of the lists built by `NewLogSyntaxHighlighter` gives
the same result as that highlighter on every string, and likewise for
`HighlightBytes`. -/
theorem keyword_order_irrelevant (Colorize : Colorizer) (h' : LogSyntaxHighlighter)
    (he : h'.errorKeywords.Perm NewLogSyntaxHighlighter.errorKeywords)
    (hw : h'.warnKeywords.Perm NewLogSyntaxHighlighter.warnKeywords)
    (hi : h'.infoKeywords.Perm NewLogSyntaxHighlighter.infoKeywords) :
    (∀ s : GoString,
      Highlight Colorize h' s = Highlight Colorize NewLogSyntaxHighlighter s) ∧
    (∀ b : ByteSlice,
      HighlightBytes Colorize h' b = HighlightBytes Colorize NewLogSyntaxHighlighter b) := by
  have key : ∀ s : GoString,
      Highlight Colorize h' s = Highlight Colorize NewLogSyntaxHighlighter s := by
    intro s
    rw [Highlight_eq, Highlight_eq]
    simp only [hasKeyword_perm he s, hasKeyword_perm hw s, hasKeyword_perm hi s]
  exact ⟨key, fun b => by rw [HighlightBytes_eq, HighlightBytes_eq, key]⟩

/-- C8 at the highlighter whose three lists are reversed, on a line that holds
keywords of all three tiers. -/
theorem keyword_order_irrelevant_witness :
    (Highlight sampleColorize
        ⟨NewLogSyntaxHighlighter.errorKeywords.reverse,
          NewLogSyntaxHighlighter.warnKeywords.reverse,
          NewLogSyntaxHighlighter.infoKeywords.reverse⟩
        (lit "info: WARN and warning before FAIL, panic") =
      Highlight sampleColorize NewLogSyntaxHighlighter
        (lit "info: WARN and warning before FAIL, panic")) ∧
    (HighlightBytes sampleColorize
        ⟨NewLogSyntaxHighlighter.errorKeywords.reverse,
          NewLogSyntaxHighlighter.warnKeywords.reverse,
          NewLogSyntaxHighlighter.infoKeywords.reverse⟩
        (lit "INFO then warn").bytes =
      HighlightBytes sampleColorize NewLogSyntaxHighlighter (lit "INFO then warn").bytes) :=
  ⟨(keyword_order_irrelevant sampleColorize
      ⟨NewLogSyntaxHighlighter.errorKeywords.reverse,
        NewLogSyntaxHighlighter.warnKeywords.reverse,
        NewLogSyntaxHighlighter.infoKeywords.reverse⟩
      (List.reverse_perm _) (List.reverse_perm _) (List.reverse_perm _)).1 _,
    (keyword_order_irrelevant sampleColorize
      ⟨NewLogSyntaxHighlighter.errorKeywords.reverse,
        NewLogSyntaxHighlighter.warnKeywords.reverse,
        NewLogSyntaxHighlighter.infoKeywords.reverse⟩
      (List.reverse_perm _) (List.reverse_perm _) (List.reverse_perm _)).2 _⟩

/-- C9. Matching is not word-boundary-aware: with a keyword `k` anywhere inside
a text `p ++ k ++ q`, the text is styled with the colour of the tier of `k` or
of a tier of higher priority: Red for an error keyword; Red or Yellow for a
warning keyword; Red, Yellow or Blue for an info keyword.  It is never the
Green fallback and never the unstyled input. -/
theorem keyword_inside_word_matches (p k q : GoString) :
    (k ∈ NewLogSyntaxHighlighter.errorKeywords →
      ∀ Colorize : Colorizer,
        Highlight Colorize NewLogSyntaxHighlighter (p ++ k ++ q) =
          Colorize (p ++ k ++ q) Paint.Red) ∧
    (k ∈ NewLogSyntaxHighlighter.warnKeywords →
      ∃ c ∈ [Paint.Red, Paint.Yellow], ∀ Colorize : Colorizer,
        Highlight Colorize NewLogSyntaxHighlighter (p ++ k ++ q) =
          Colorize (p ++ k ++ q) c) ∧
    (k ∈ NewLogSyntaxHighlighter.infoKeywords →
      ∃ c ∈ [Paint.Red, Paint.Yellow, Paint.Blue], ∀ Colorize : Colorizer,
        Highlight Colorize NewLogSyntaxHighlighter (p ++ k ++ q) =
          Colorize (p ++ k ++ q) c) := by
  have hs : IsSubstring k (p ++ k ++ q) := isSubstring_append p k q
  refine ⟨fun hk C => ?_, fun hk => ?_, fun hk => ?_⟩
  · rw [Highlight_eq, if_pos ⟨k, hk, hs⟩]
  · by_cases h1 : HasKeyword NewLogSyntaxHighlighter.errorKeywords (p ++ k ++ q)
    · exact ⟨Paint.Red, by simp, fun C => by rw [Highlight_eq, if_pos h1]⟩
    · exact ⟨Paint.Yellow, by simp,
        fun C => by rw [Highlight_eq, if_neg h1, if_pos ⟨k, hk, hs⟩]⟩
  · by_cases h1 : HasKeyword NewLogSyntaxHighlighter.errorKeywords (p ++ k ++ q)
    · exact ⟨Paint.Red, by simp, fun C => by rw [Highlight_eq, if_pos h1]⟩
    by_cases h2 : HasKeyword NewLogSyntaxHighlighter.warnKeywords (p ++ k ++ q)
    · exact ⟨Paint.Yellow, by simp, fun C => by rw [Highlight_eq, if_neg h1, if_pos h2]⟩
    · exact ⟨Paint.Blue, by simp,
        fun C => by rw [Highlight_eq, if_neg h1, if_neg h2, if_pos ⟨k, hk, hs⟩]⟩

/-- C9 at "FOREWARNING", which is "FORE" ++ "WARNING" ++ "": Yellow. -/
theorem keyword_inside_word_matches_witness :
    lit "FORE" ++ lit "WARNING" ++ lit "" = lit "FOREWARNING" ∧
    (∃ c ∈ [Paint.Red, Paint.Yellow], ∀ Colorize : Colorizer,
      Highlight Colorize NewLogSyntaxHighlighter (lit "FORE" ++ lit "WARNING" ++ lit "") =
        Colorize (lit "FORE" ++ lit "WARNING" ++ lit "") c) ∧
    Highlight sampleColorize NewLogSyntaxHighlighter (lit "FOREWARNING") =
      sampleColorize (lit "FOREWARNING") Paint.Yellow :=
  ⟨by decide,
    (keyword_inside_word_matches (lit "FORE") (lit "WARNING") (lit "")).2.1 (by decide),
    by decide⟩

/-- C10. Matching is case-sensitive: when every occurrence in `s` of the
letters of a keyword (a substring `w` that equals a keyword `k` up to letter
case) differs from every listed spelling `k'` of those letters, and `s` holds
no ASCII digit, `s` is returned unchanged. -/
theorem matching_is_case_sensitive (Colorize : Colorizer) (s : GoString)
    (hcase : ∀ k ∈ keywords NewLogSyntaxHighlighter, ∀ w : GoString,
      IsSubstring w s → foldCase w = foldCase k →
        ∀ k' ∈ keywords NewLogSyntaxHighlighter, foldCase k' = foldCase k → w ≠ k')
    (hd : ¬ HasAsciiDigit s) :
    Highlight Colorize NewLogSyntaxHighlighter s = s := by
  have hno : ∀ k ∈ keywords NewLogSyntaxHighlighter, ¬ IsSubstring k s :=
    fun k hk hs => hcase k hk k hs rfl k hk rfl rfl
  have h1 : ¬ HasKeyword NewLogSyntaxHighlighter.errorKeywords s :=
    fun ⟨e, he, hes⟩ => hno e (by simp [keywords, he]) hes
  have h2 : ¬ HasKeyword NewLogSyntaxHighlighter.warnKeywords s :=
    fun ⟨e, he, hes⟩ => hno e (by simp [keywords, he]) hes
  have h3 : ¬ HasKeyword NewLogSyntaxHighlighter.infoKeywords s :=
    fun ⟨e, he, hes⟩ => hno e (by simp [keywords, he]) hes
  rw [Highlight_eq, if_neg h1, if_neg h2, if_neg h3, if_neg hd]

/-- C10 at "Error Warning Info Fatal Panic Failed": folded to lower case the
text holds "error", "warn", "info", "fatal", "panic" and "fail", yet no listed
spelling occurs in it and it is returned unchanged. -/
theorem matching_is_case_sensitive_witness :
    (∀ k ∈ [lit "error", lit "warn", lit "warning", lit "info", lit "fatal", lit "panic",
        lit "fail"],
      k ∈ keywords NewLogSyntaxHighlighter ∧
        IsSubstring k (foldCase (lit "Error Warning Info Fatal Panic Failed"))) ∧
    (∀ k ∈ keywords NewLogSyntaxHighlighter,
      ¬ IsSubstring k (lit "Error Warning Info Fatal Panic Failed")) ∧
    Highlight sampleColorize NewLogSyntaxHighlighter
        (lit "Error Warning Info Fatal Panic Failed") =
      lit "Error Warning Info Fatal Panic Failed" :=
  ⟨by decide, by decide,
    matching_is_case_sensitive sampleColorize (lit "Error Warning Info Fatal Panic Failed")
      (fun _ _ w hw _ k' hk' _ heq =>
        (by decide : ∀ k ∈ keywords NewLogSyntaxHighlighter,
          ¬ IsSubstring k (lit "Error Warning Info Fatal Panic Failed")) k' hk' (heq ▸ hw))
      (by decide)⟩

/-! ## Totality, the keyword tables, the rule list -/

theorem rangeRunes_fuel (n m : Nat) (l : List UInt8) (hn : l.length ≤ n)
    (hm : l.length ≤ m) : rangeRunes n l = rangeRunes m l := by
  induction n generalizing m l with
  | zero =>
    have hl : l = [] := List.eq_nil_of_length_eq_zero (by omega)
    subst hl
    cases m <;> rfl
  | succ n ih =>
    cases l with
    | nil => cases m <;> rfl
    | cons b bs =>
      cases m with
      | zero => simp at hm
      | succ m =>
        have hw := decode_width_pos b bs
        simp only [rangeRunes]
        congr 1
        apply ih
        · simp only [List.length_drop, List.length_cons] at hn ⊢; omega
        · simp only [List.length_drop, List.length_cons] at hm ⊢; omega

/-- C11. No failure on any input, and empty content is returned unchanged:
`Highlight` and `HighlightBytes` give a result for every input (the range loop
over code points ends within `len(s)` iterations: more fuel changes nothing),
`Highlight("")` is `""` and `HighlightBytes` of the empty byte sequence is the
empty byte sequence, the empty content holding no keyword and no digit. -/
theorem highlight_total_empty_unchanged (Colorize : Colorizer) :
    (∀ s : GoString, ∃ r : GoString, Highlight Colorize NewLogSyntaxHighlighter s = r) ∧
    (∀ b : ByteSlice, ∃ r : ByteSlice,
      HighlightBytes Colorize NewLogSyntaxHighlighter b = r) ∧
    (∀ (s : GoString) (fuel : Nat), s.bytes.length ≤ fuel →
      rangeRunes fuel s.bytes = runes s) ∧
    Highlight Colorize NewLogSyntaxHighlighter (lit "") = lit "" ∧
    HighlightBytes Colorize NewLogSyntaxHighlighter [] = [] ∧
    (∀ k ∈ keywords NewLogSyntaxHighlighter, ¬ IsSubstring k (lit "")) ∧
    ¬ HasAsciiDigit (lit "") := by
  have hk : ∀ k ∈ keywords NewLogSyntaxHighlighter, ¬ IsSubstring k (lit "") := by decide
  have hd : ¬ HasAsciiDigit (lit "") := by decide
  have h1 : ¬ HasKeyword NewLogSyntaxHighlighter.errorKeywords (lit "") := by decide
  have h2 : ¬ HasKeyword NewLogSyntaxHighlighter.warnKeywords (lit "") := by decide
  have h3 : ¬ HasKeyword NewLogSyntaxHighlighter.infoKeywords (lit "") := by decide
  have he : Highlight Colorize NewLogSyntaxHighlighter (lit "") = lit "" := by
    rw [Highlight_eq, if_neg h1, if_neg h2, if_neg h3, if_neg hd]
  refine ⟨fun s => ⟨_, rfl⟩, fun b => ⟨_, rfl⟩, ?_, he, ?_, hk, hd⟩
  · intro s fuel hf
    exact rangeRunes_fuel fuel s.bytes.length s.bytes hf (le_refl _)
  · have hb := HighlightBytes_eq Colorize NewLogSyntaxHighlighter []
    rw [hb]
    exact congrArg GoString.bytes he

/-- C12. `NewLogSyntaxHighlighter` takes no parameters and builds exactly these
tiers: error = ERROR, error, FATAL, fatal, PANIC, panic, Exception, exception,
fail, FAIL; warning = WARN, warn, WARNING, warning; info = INFO, info.  Given
both as the lists of literals and as membership: no other keyword is present
and none is missing. -/
theorem newLogSyntaxHighlighter_tiers :
    NewLogSyntaxHighlighter.errorKeywords =
      [lit "ERROR", lit "error", lit "FATAL", lit "fatal", lit "PANIC", lit "panic",
       lit "Exception", lit "exception", lit "fail", lit "FAIL"] ∧
    NewLogSyntaxHighlighter.warnKeywords =
      [lit "WARN", lit "warn", lit "WARNING", lit "warning"] ∧
    NewLogSyntaxHighlighter.infoKeywords = [lit "INFO", lit "info"] ∧
    (∀ k : GoString, k ∈ NewLogSyntaxHighlighter.errorKeywords ↔
      k = lit "ERROR" ∨ k = lit "error" ∨ k = lit "FATAL" ∨ k = lit "fatal" ∨
      k = lit "PANIC" ∨ k = lit "panic" ∨ k = lit "Exception" ∨ k = lit "exception" ∨
      k = lit "fail" ∨ k = lit "FAIL") ∧
    (∀ k : GoString, k ∈ NewLogSyntaxHighlighter.warnKeywords ↔
      k = lit "WARN" ∨ k = lit "warn" ∨ k = lit "WARNING" ∨ k = lit "warning") ∧
    (∀ k : GoString, k ∈ NewLogSyntaxHighlighter.infoKeywords ↔
      k = lit "INFO" ∨ k = lit "info") ∧
    NewLogSyntaxHighlighter.errorKeywords.length = 10 ∧
    NewLogSyntaxHighlighter.warnKeywords.length = 4 ∧
    NewLogSyntaxHighlighter.infoKeywords.length = 2 ∧
    (NewLogSyntaxHighlighter.errorKeywords.map GoString.bytes).take 2 =
      [[0x45, 0x52, 0x52, 0x4F, 0x52], [0x65, 0x72, 0x72, 0x6F, 0x72]] := by
  refine ⟨rfl, rfl, rfl, fun k => ?_, fun k => ?_, fun k => ?_, rfl, rfl, rfl, by decide⟩
  · simp only [NewLogSyntaxHighlighter, List.mem_cons, List.mem_singleton,
      List.not_mem_nil, or_false]
  · simp only [NewLogSyntaxHighlighter, List.mem_cons, List.mem_singleton,
      List.not_mem_nil, or_false]
  · simp only [NewLogSyntaxHighlighter, List.mem_cons, List.mem_singleton,
      List.not_mem_nil, or_false]

/-- C13. `Highlight` is, on every input, first-match evaluation of the ordered
rule list (some error keyword, Red), (some warning keyword, Yellow), (some info
keyword, Blue), (an ASCII digit, Green): `Colorize(s, c)` for the colour of the
first rule whose predicate holds, and `s` itself when none holds. -/
theorem highlight_refines_rule_list (Colorize : Colorizer) (h : LogSyntaxHighlighter)
    (s : GoString) :
    Highlight Colorize h s = specFirstMatch Colorize (specRules h) s := by
  rw [Highlight_eq]
  unfold specFirstMatch specRules
  by_cases h1 : HasKeyword h.errorKeywords s
  · simp [List.find?, h1]
  by_cases h2 : HasKeyword h.warnKeywords s
  · simp [List.find?, h1, h2]
  by_cases h3 : HasKeyword h.infoKeywords s
  · simp [List.find?, h1, h2, h3]
  by_cases h4 : HasAsciiDigit s
  · simp [List.find?, h1, h2, h3, h4]
  · simp [List.find?, h1, h2, h3, h4]

/-! ## Severity under extension, keywords on their own, redundant spellings -/

theorem isSubstring_trans {k a b : GoString} (hka : IsSubstring k a) (hab : IsSubstring a b) :
    IsSubstring k b :=
  List.IsInfix.trans hka hab

theorem hasKeyword_mono {l : List GoString} {a b : GoString} (hab : IsSubstring a b)
    (ha : HasKeyword l a) : HasKeyword l b := by
  obtain ⟨k, hk, hs⟩ := ha
  exact ⟨k, hk, isSubstring_trans hs hab⟩

theorem hasAsciiDigit_mono {a b : GoString} (hab : IsSubstring a b) (ha : HasAsciiDigit a) :
    HasAsciiDigit b := by
  obtain ⟨x, hx, hd⟩ := ha
  exact ⟨x, (List.IsInfix.sublist hab).subset hx, hd⟩

theorem styled_tag_injective (s : GoString) (r r' : Option Paint)
    (h : styled tagColorize s r = styled tagColorize s r') : r = r' := by
  have hlen := congrArg (fun x : GoString => x.bytes.length) h
  have hhead := congrArg (fun x : GoString => x.bytes.head?) h
  cases r with
  | none =>
    cases r' with
    | none => rfl
    | some c' => cases c' <;> simp [styled, tagColorize] at hlen
  | some c =>
    cases r' with
    | none => cases c <;> simp [styled, tagColorize] at hlen
    | some c' =>
      cases c <;> cases c' <;> first
        | rfl
        | (exfalso; simp [styled, tagColorize] at hhead)

/-- The outcome of `Highlight` on an input is fixed by its results over all
collaborators. -/
theorem outcome_unique (h : LogSyntaxHighlighter) (s : GoString) (r : Option Paint)
    (hr : ∀ Colorize : Colorizer, Highlight Colorize h s = styled Colorize s r) :
    r =
      if HasKeyword h.errorKeywords s then some Paint.Red
      else if HasKeyword h.warnKeywords s then some Paint.Yellow
      else if HasKeyword h.infoKeywords s then some Paint.Blue
      else if HasAsciiDigit s then some Paint.Green
      else none := by
  have ht := hr tagColorize
  rw [Highlight_eq] at ht
  split_ifs at ht ⊢ <;> exact styled_tag_injective s _ _ ht.symm

/-- C14. Severity is monotone under extension: with the outcomes ranked
Red > Yellow > Blue > Green > unchanged, when `a` is a contiguous substring of
`b` the outcome for `b` ranks at least as high as the outcome for `a`. -/
theorem severity_monotone (h : LogSyntaxHighlighter) (a b : GoString)
    (hab : IsSubstring a b) (ra rb : Option Paint)
    (ha : ∀ Colorize : Colorizer, Highlight Colorize h a = styled Colorize a ra)
    (hb : ∀ Colorize : Colorizer, Highlight Colorize h b = styled Colorize b rb) :
    rank ra ≤ rank rb := by
  rw [outcome_unique h a ra ha, outcome_unique h b rb hb]
  by_cases b1 : HasKeyword h.errorKeywords b
  · rw [if_pos b1]
    split_ifs <;> simp [rank]
  have a1 : ¬ HasKeyword h.errorKeywords a := fun x => b1 (hasKeyword_mono hab x)
  rw [if_neg b1, if_neg a1]
  by_cases b2 : HasKeyword h.warnKeywords b
  · rw [if_pos b2]
    split_ifs <;> simp [rank]
  have a2 : ¬ HasKeyword h.warnKeywords a := fun x => b2 (hasKeyword_mono hab x)
  rw [if_neg b2, if_neg a2]
  by_cases b3 : HasKeyword h.infoKeywords b
  · rw [if_pos b3]
    split_ifs <;> simp [rank]
  have a3 : ¬ HasKeyword h.infoKeywords a := fun x => b3 (hasKeyword_mono hab x)
  rw [if_neg b3, if_neg a3]
  by_cases b4 : HasAsciiDigit b
  · rw [if_pos b4]
    split_ifs <;> simp [rank]
  have a4 : ¬ HasAsciiDigit a := fun x => b4 (hasAsciiDigit_mono hab x)
  rw [if_neg b4, if_neg a4]

/-- C14 at "retry attempt 3" (Green) inside "panic: retry attempt 3 of job"
(Red): rank 1 is at most rank 4. -/
theorem severity_monotone_witness :
    IsSubstring (lit "retry attempt 3") (lit "panic: retry attempt 3 of job") ∧
    Highlight tagColorize NewLogSyntaxHighlighter (lit "retry attempt 3") =
      tagColorize (lit "retry attempt 3") Paint.Green ∧
    Highlight tagColorize NewLogSyntaxHighlighter (lit "panic: retry attempt 3 of job") =
      tagColorize (lit "panic: retry attempt 3 of job") Paint.Red ∧
    rank (some Paint.Green) ≤ rank (some Paint.Red) :=
  ⟨by decide, by decide, by decide,
    severity_monotone NewLogSyntaxHighlighter (lit "retry attempt 3")
      (lit "panic: retry attempt 3 of job") (by decide) (some Paint.Green) (some Paint.Red)
      (fun C => by
        rw [Highlight_eq, if_neg (by decide), if_neg (by decide), if_neg (by decide),
          if_pos (by decide)]
        rfl)
      (fun C => by
        rw [Highlight_eq, if_pos (by decide)]
        rfl)⟩

/-- C15. Every keyword on its own is classified in its own tier: an error
keyword gives Red, a warning keyword Yellow, an info keyword Blue; no warning
keyword contains an error keyword, and no info keyword contains an error or a
warning keyword. -/
theorem keyword_alone_in_own_tier (Colorize : Colorizer) :
    (∀ k ∈ NewLogSyntaxHighlighter.errorKeywords,
      Highlight Colorize NewLogSyntaxHighlighter k = Colorize k Paint.Red) ∧
    (∀ k ∈ NewLogSyntaxHighlighter.warnKeywords,
      Highlight Colorize NewLogSyntaxHighlighter k = Colorize k Paint.Yellow) ∧
    (∀ k ∈ NewLogSyntaxHighlighter.infoKeywords,
      Highlight Colorize NewLogSyntaxHighlighter k = Colorize k Paint.Blue) ∧
    (∀ k ∈ NewLogSyntaxHighlighter.warnKeywords,
      ∀ e ∈ NewLogSyntaxHighlighter.errorKeywords, ¬ IsSubstring e k) ∧
    (∀ k ∈ NewLogSyntaxHighlighter.infoKeywords,
      ∀ e ∈ NewLogSyntaxHighlighter.errorKeywords ++ NewLogSyntaxHighlighter.warnKeywords,
        ¬ IsSubstring e k) := by
  have hself : ∀ k : GoString, IsSubstring k k := fun k => List.infix_refl k.bytes
  have hw : ∀ k ∈ NewLogSyntaxHighlighter.warnKeywords,
      ¬ HasKeyword NewLogSyntaxHighlighter.errorKeywords k := by decide
  have hi : ∀ k ∈ NewLogSyntaxHighlighter.infoKeywords,
      ¬ HasKeyword NewLogSyntaxHighlighter.errorKeywords k ∧
        ¬ HasKeyword NewLogSyntaxHighlighter.warnKeywords k := by decide
  refine ⟨fun k hk => ?_, fun k hk => ?_, fun k hk => ?_, by decide, by decide⟩
  · rw [Highlight_eq, if_pos ⟨k, hk, hself k⟩]
  · rw [Highlight_eq, if_neg (hw k hk), if_pos ⟨k, hk, hself k⟩]
  · rw [Highlight_eq, if_neg (hi k hk).1, if_neg (hi k hk).2, if_pos ⟨k, hk, hself k⟩]

/-- C16. The keywords "WARNING" and "warning" are redundant: the highlighter
whose warning tier is only WARN, warn (error and info tiers as built by
`NewLogSyntaxHighlighter`) returns what the default highlighter returns on
every input, from `Highlight` and from `HighlightBytes`, because a string that
contains "WARNING" contains "WARN" and one that contains "warning" contains
"warn". -/
theorem warning_spellings_redundant (Colorize : Colorizer) :
    (∀ s : GoString,
      Highlight Colorize
          ⟨NewLogSyntaxHighlighter.errorKeywords, [lit "WARN", lit "warn"],
            NewLogSyntaxHighlighter.infoKeywords⟩ s =
        Highlight Colorize NewLogSyntaxHighlighter s) ∧
    (∀ b : ByteSlice,
      HighlightBytes Colorize
          ⟨NewLogSyntaxHighlighter.errorKeywords, [lit "WARN", lit "warn"],
            NewLogSyntaxHighlighter.infoKeywords⟩ b =
        HighlightBytes Colorize NewLogSyntaxHighlighter b) ∧
    (∀ s : GoString, IsSubstring (lit "WARNING") s → IsSubstring (lit "WARN") s) ∧
    (∀ s : GoString, IsSubstring (lit "warning") s → IsSubstring (lit "warn") s) := by
  have hW : ∀ s : GoString, IsSubstring (lit "WARNING") s → IsSubstring (lit "WARN") s :=
    fun s hs => isSubstring_trans (by decide) hs
  have hw : ∀ s : GoString, IsSubstring (lit "warning") s → IsSubstring (lit "warn") s :=
    fun s hs => isSubstring_trans (by decide) hs
  have hiff : ∀ s : GoString,
      HasKeyword [lit "WARN", lit "warn"] s ↔
        HasKeyword NewLogSyntaxHighlighter.warnKeywords s := by
    intro s
    constructor
    · rintro ⟨k, hk, hs⟩
      refine ⟨k, ?_, hs⟩
      simp only [List.mem_cons, List.mem_singleton, List.not_mem_nil, or_false] at hk
      simp only [NewLogSyntaxHighlighter, List.mem_cons, List.mem_singleton,
        List.not_mem_nil, or_false]
      tauto
    · rintro ⟨k, hk, hs⟩
      simp only [NewLogSyntaxHighlighter, List.mem_cons, List.mem_singleton,
        List.not_mem_nil, or_false] at hk
      rcases hk with rfl | rfl | rfl | rfl
      · exact ⟨_, List.mem_cons_self _ _, hs⟩
      · exact ⟨_, List.mem_cons_of_mem _ (List.mem_cons_self _ _), hs⟩
      · exact ⟨_, List.mem_cons_self _ _, hW s hs⟩
      · exact ⟨_, List.mem_cons_of_mem _ (List.mem_cons_self _ _), hw s hs⟩
  have key : ∀ s : GoString,
      Highlight Colorize
          ⟨NewLogSyntaxHighlighter.errorKeywords, [lit "WARN", lit "warn"],
            NewLogSyntaxHighlighter.infoKeywords⟩ s =
        Highlight Colorize NewLogSyntaxHighlighter s := by
    intro s
    rw [Highlight_eq, Highlight_eq]
    simp only [hiff s]
  exact ⟨key, fun b => by rw [HighlightBytes_eq, HighlightBytes_eq, key], hW, hw⟩

end color
